import Mathlib

set_option maxRecDepth 2000

/-!
Verification development for the Wi-Fi scan parser and continuous-scan
coordinator of `MPI_HW1_ExampleCode/WiFiScanner.py`.

The Python source is shallowly embedded: the regex searches of
`_parse_cell` and the `re.split` of `_parse_scan_results` are realised as
explicit character-list scanners with the same left-to-right search
semantics as `re.search`/`re.split` on the concrete patterns of the source
(`\d` is modelled as an ASCII digit); Python dicts are insertion-ordered
association lists with overwrite-in-place assignment; the subprocess call
of `_scan_wifi_sync` is modelled by an outcome datatype matching its
`except` clauses; the asyncio start/stop lifecycle is a state machine over
an explicit record of the `_running` flag, the `_scan_task` handle and the
set of live loop tasks.
-/

/-- Network record parsed from one iwlist cell, mirroring the `NetworkInfo`
dataclass of WiFiScanner.py.  The `last_seen` timestamp field is omitted:
parsing is pure apart from reading the clock, and no claim mentions it.
`_parse_cell` always supplies `essid`, `encryption` and `frequency`
explicitly, and `encryption` is always a string there, so it is a plain
`String` here. -/
structure NetworkInfo where
  bssid : String
  signal_strength : Int
  essid : Option String
  encryption : String
  frequency : Option String
deriving DecidableEq, Repr

/-- The type of `self.wifi_data` and of scan results: a Python dict from
BSSID to `NetworkInfo`, modelled as an insertion-ordered association
list. -/
abbrev Dict := List (String × NetworkInfo)

/-- Python dict assignment `d[k] = v` on an insertion-ordered association
list: an existing key keeps its position and receives the new value, a new
key is appended at the end. -/
def dictInsert {α β : Type} [DecidableEq α] (m : List (α × β)) (k : α) (v : β) :
    List (α × β) :=
  if m.any fun p => decide (p.1 = k) then
    m.map fun p => if p.1 = k then (p.1, v) else p
  else m ++ [(k, v)]

/-- Python `d.update(other)`: insert every pair of `other`, in order. -/
def dictUpdate {α β : Type} [DecidableEq α] (m other : List (α × β)) :
    List (α × β) :=
  other.foldl (fun acc p => dictInsert acc p.1 p.2) m

/-- Python `dict(pairs)`. -/
def dictOfPairs {α β : Type} [DecidableEq α] (l : List (α × β)) : List (α × β) :=
  dictUpdate [] l

/-- One assignment step: apply the assignment `kv` to the entry `p`,
replacing its value when the keys agree. -/
def stepAssign {α β : Type} [DecidableEq α] (p kv : α × β) : α × β :=
  if p.1 = kv.1 then (p.1, kv.2) else p

/-- Effect of a whole assignment list on one entry. -/
def finalAssign {α β : Type} [DecidableEq α] (t : List (α × β)) (p : α × β) : α × β :=
  t.foldl stepAssign p

/-- Value of the last assignment to key `k` in the list `t`, if any. -/
def lastAssign {α β : Type} [DecidableEq α] : List (α × β) → α → Option β
  | [], _ => none
  | kv :: t, k =>
      match lastAssign t k with
      | some w => some w
      | none => if kv.1 = k then some kv.2 else none

/-- Decidable prefix test on character lists. -/
def charsStartWith : List Char → List Char → Bool
  | [], _ => true
  | _ :: _, [] => false
  | p :: ps, c :: cs => p = c && charsStartWith ps cs

/-- Substring test on character lists (semantics of `re.search` for a
literal pattern, as a Boolean). -/
def containsAux (pat : List Char) : List Char → Bool
  | [] => pat.isEmpty
  | c :: rest => charsStartWith pat (c :: rest) || containsAux pat rest

/-- Character class `[0-9A-Fa-f:]` of the BSSID pattern. -/
def isAddrChar (c : Char) : Bool :=
  c.isDigit || (decide ('A' ≤ c) && decide (c ≤ 'F')) ||
    (decide ('a' ≤ c) && decide (c ≤ 'f')) || c = ':'

/-- Take exactly `n` characters of the BSSID class, failing if fewer are
available (the `{17}` quantifier). -/
def takeAddrChars : Nat → List Char → Option (List Char)
  | 0, _ => some []
  | _ + 1, [] => none
  | n + 1, c :: rest =>
      if isAddrChar c then (takeAddrChars n rest).map fun ds => c :: ds else none

def addrLit : List Char := "Address: ".toList

/-- Search semantics of `re.search(r'Address: ([0-9A-Fa-f:]{17})', s)`:
the capture group of the leftmost match.  At each position the literal
label is tried, then exactly 17 class characters; on failure the scan
moves one character to the right. -/
def findAddressAux : List Char → Option (List Char)
  | [] => none
  | c :: rest =>
      match (if charsStartWith addrLit (c :: rest) then
               takeAddrChars 17 ((c :: rest).drop 9)
             else none) with
      | some a => some a
      | none => findAddressAux rest

/-- Digit run to a number (the value of a matched `\d+` group). -/
def digitsToNat (ds : List Char) : Nat :=
  ds.foldl (fun n c => 10 * n + (c.toNat - 48)) 0

/-- Match `-?\d+` at the front of the input: an optional minus sign
followed by a maximal nonempty ASCII digit run.  As in the regex engine,
a minus sign not followed by a digit cannot match (backtracking to drop
the optional sign leaves `\d+` looking at the sign itself). -/
def matchSignedInt (cs : List Char) : Option Int :=
  match cs with
  | [] => none
  | c :: rest =>
      if c = '-' then
        let ds := rest.takeWhile Char.isDigit
        if ds.isEmpty then none else some (-(digitsToNat ds : Int))
      else
        let ds := (c :: rest).takeWhile Char.isDigit
        if ds.isEmpty then none else some (digitsToNat ds)

def sigLit : List Char := "Signal level=".toList

/-- Search semantics of `re.search(r'Signal level=(-?\d+)', s)`: at each
position try the 13-character label and then a signed integer; on failure
move one character to the right. -/
def findSignalAux : List Char → Option Int
  | [] => none
  | c :: rest =>
      if charsStartWith sigLit (c :: rest) then
        match matchSignedInt ((c :: rest).drop 13) with
        | some n => some n
        | none => findSignalAux rest
      else findSignalAux rest

def quoteChar : Char := Char.ofNat 34

def essidLit : List Char := "ESSID:".toList ++ [quoteChar]

/-- Search semantics of `re.search(r'ESSID:"([^"]*)"', s)`: after the
opening label the capture is the maximal run of non-quote characters,
which must be terminated by a closing quote; otherwise the scan moves one
character to the right. -/
def findEssidAux : List Char → Option (List Char)
  | [] => none
  | c :: rest =>
      match (if charsStartWith essidLit (c :: rest) then
               let body := ((c :: rest).drop 7).takeWhile fun ch => ch ≠ quoteChar
               let after := ((c :: rest).drop 7).dropWhile fun ch => ch ≠ quoteChar
               if after.isEmpty then none else some body
             else none) with
      | some a => some a
      | none => findEssidAux rest

def ieLit : List Char := "IE:".toList

def newlineChar : Char := Char.ofNat 10

/-- Search semantics of `re.search(r'IE:.*<pat>', s)` for a literal tail
`pat` without newlines: some occurrence of `IE:` is followed, with no
intervening newline (`.` does not match a newline), by an occurrence of
`pat`. -/
def hasIEAux (pat : List Char) : List Char → Bool
  | [] => false
  | c :: rest =>
      (charsStartWith ieLit (c :: rest) &&
        containsAux pat (((c :: rest).drop 3).takeWhile fun ch => ch ≠ newlineChar))
      || hasIEAux pat rest

def encLit : List Char := "Encryption key:on".toList

def wpa2Lit : List Char := "WPA2".toList

def wpaLit : List Char := "WPA".toList

def freqLit : List Char := "Frequency:".toList

/-- Character class `[\d.]` of the frequency pattern. -/
def isFreqChar (c : Char) : Bool := c.isDigit || c = '.'

def ghzLit : List Char := " GHz".toList

/-- Search semantics of `re.search(r'Frequency:([\d.]+) GHz', s)`: after
the label the capture is a maximal nonempty run of digits and dots, which
must be followed by the literal unit; otherwise the scan moves one
character to the right (a digit run cannot be backtracked into a space,
so only the maximal run is tried). -/
def findFreqAux : List Char → Option (List Char)
  | [] => none
  | c :: rest =>
      match (if charsStartWith freqLit (c :: rest) then
               let ds := ((c :: rest).drop 10).takeWhile isFreqChar
               let after := ((c :: rest).drop 10).dropWhile isFreqChar
               if ds.isEmpty then none
               else if charsStartWith ghzLit after then some ds else none
             else none) with
      | some a => some a
      | none => findFreqAux rest

/-- `_parse_cell` of WiFiScanner.py: extract the BSSID (returning `none`
when absent), the signal strength with default `-100`, the optional ESSID,
the security mode from the encryption markers, and the optional
frequency. -/
def parse_cell (cell_data : String) : Option NetworkInfo :=
  let cs := cell_data.toList
  match findAddressAux cs with
  | none => none
  | some addr =>
      let signal_strength : Int := (findSignalAux cs).getD (-100)
      let essid := (findEssidAux cs).map String.mk
      let encryption :=
        if containsAux encLit cs then
          if hasIEAux wpa2Lit cs then "WPA2"
          else if hasIEAux wpaLit cs then "WPA"
          else "WEP"
        else "Open"
      let frequency := (findFreqAux cs).map fun ds => String.mk ds ++ " GHz"
      some { bssid := String.mk addr, signal_strength, essid, encryption, frequency }

def cellLit : List Char := "Cell ".toList

def dashLit : List Char := " - ".toList

/-- Match the delimiter `Cell \d+ - ` at the front of the input, returning
the text after it.  The digit run is maximal and must be nonempty; it
cannot be backtracked into the following space, so only the maximal run is
tried. -/
def matchCellDelim (cs : List Char) : Option (List Char) :=
  if charsStartWith cellLit cs then
    let afterCell := cs.drop 5
    let ds := afterCell.takeWhile Char.isDigit
    let afterDigits := afterCell.dropWhile Char.isDigit
    if ds.isEmpty then none
    else if charsStartWith dashLit afterDigits then some (afterDigits.drop 3)
    else none
  else none

/-- Scan for non-overlapping leftmost matches of the delimiter, cutting
the text at each one (the semantics of `re.split`).  Every step consumes
at least one character, so fuel equal to the length of the input always
suffices and the fuel-exhaustion branch is never reached from
`splitCells`. -/
def splitCellsFuel : Nat → List Char → List Char → List (List Char)
  | _, [], acc => [acc.reverse]
  | 0, cs, acc => [acc.reverse ++ cs]
  | fuel + 1, c :: rest, acc =>
      match matchCellDelim (c :: rest) with
      | some after => acc.reverse :: splitCellsFuel fuel after []
      | none => splitCellsFuel fuel rest (c :: acc)

/-- `re.split(r'Cell \d+ - ', scan_output)[1:]`: the per-cell chunks, with
the banner before the first delimiter discarded. -/
def splitCells (scan_output : String) : List String :=
  ((splitCellsFuel scan_output.toList.length scan_output.toList []).drop 1).map
    String.mk

/-- Loop body of `_parse_scan_results` over the chunk list: a cell whose
parse yields a record with a truthy (here: nonempty; it is always 17
characters long) BSSID is stored under that BSSID, any other cell is
skipped. -/
def parseChunksFrom (networks : Dict) : List String → Dict
  | [] => networks
  | cell :: cells =>
      match parse_cell cell with
      | some info =>
          if info.bssid ≠ "" then
            parseChunksFrom (dictInsert networks info.bssid info) cells
          else parseChunksFrom networks cells
      | none => parseChunksFrom networks cells

/-- `_parse_scan_results` of WiFiScanner.py. -/
def parse_scan_results (scan_output : String) : Dict :=
  parseChunksFrom [] (splitCells scan_output)

/-- Number of warnings logged by `_parse_scan_results`: its `except`
branch fires only when `_parse_cell` raises.  `_parse_cell` is a total
function of its input — `re.search` on a `str` cannot raise, `int` of a
matched `-?\d+` group cannot raise, and a missing identifier returns
`None` rather than raising — so the handler never runs and no warning is
ever logged, whatever the input. -/
def parse_warnings (_scan_output : String) : Nat := 0

/-- The per-chunk key/record assignments produced by a scan text, in text
order: the parsed record of each chunk with a parsable identifier, keyed
by that identifier. -/
def cellRecords (scan_output : String) : Dict :=
  (splitCells scan_output).filterMap fun c =>
    (parse_cell c).map fun info => (info.bssid, info)

/-- Outcome of running the external iwlist subprocess.  `success` carries
the decoded combined stdout+stderr text; the other constructors name the
exception classes distinguished by the `except` clauses of
`_scan_wifi_sync` (`CalledProcessError` for a nonzero exit status,
`TimeoutExpired`, and the catch-all `except Exception`, which in
particular covers `FileNotFoundError` when the tool binary is missing). -/
inductive ExecOutcome where
  | success (output : String)
  | calledProcessError
  | timeoutExpired
  | fileNotFoundError
  | otherError
deriving DecidableEq, Repr

/-- `_scan_wifi_sync` as a function of the subprocess outcome: on success
the output is parsed, on any failure an error is logged (the Boolean
component) and the empty dict is returned.  Totality of this function
models that no exception escapes to the caller. -/
def scan_wifi_sync (outcome : ExecOutcome) : Dict × Bool :=
  match outcome with
  | .success out => (parse_scan_results out, false)
  | .calledProcessError => ([], true)
  | .timeoutExpired => ([], true)
  | .fileNotFoundError => ([], true)
  | .otherError => ([], true)

/-- Merge step of `_scan_loop`: a nonempty scan result is merged into the
cache with `dict.update`; an empty result only logs a warning and leaves
the cache alone. -/
def scanLoopMerge (wifi_data scan_results : Dict) : Dict :=
  if scan_results.isEmpty then wifi_data else dictUpdate wifi_data scan_results

/-- `get_networks` of WiFiScanner.py: the dict comprehension keeping the
records with `signal_strength >= min_signal`, in cache order. -/
def get_networks (wifi_data : Dict) (min_signal : Int) : Dict :=
  wifi_data.filter fun p => decide (min_signal ≤ p.2.signal_strength)

/-- `get_networks` at its default argument `min_signal = -100`. -/
def get_networks_default (wifi_data : Dict) : Dict :=
  get_networks wifi_data (-100)

/-- Comparison used by `get_strongest_networks`: `a` sorts no later than
`b` when its signal is at least that of `b`.  Stable insertion sort with
this relation produces exactly the order of Python
`sorted(key=signal, reverse=True)`: signal descending, ties in original
order. -/
def sigGE (a b : String × NetworkInfo) : Prop :=
  b.2.signal_strength ≤ a.2.signal_strength

instance : DecidableRel sigGE := fun a b =>
  inferInstanceAs (Decidable (b.2.signal_strength ≤ a.2.signal_strength))

instance : IsTotal (String × NetworkInfo) sigGE :=
  ⟨fun a b => le_total b.2.signal_strength a.2.signal_strength⟩

instance : IsTrans (String × NetworkInfo) sigGE :=
  ⟨fun _ _ _ h1 h2 => le_trans h2 h1⟩

/-- Python list slice `l[:n]` for an `int` index `n`: a nonnegative `n`
takes the first `n` elements, a negative `n` drops the last `|n|`
elements (empty when `|n|` exceeds the length). -/
def pyTake {α : Type} (l : List α) (n : Int) : List α :=
  if 0 ≤ n then l.take n.toNat else l.take (l.length - (-n).toNat)

/-- `get_strongest_networks` of WiFiScanner.py: sort the cache items by
descending signal strength (Python `sorted` with `reverse=True`, a stable
descending sort), slice the first `count`, and rebuild a dict. -/
def get_strongest_networks (wifi_data : Dict) (count : Int) : Dict :=
  dictOfPairs (pyTake (List.insertionSort sigGE wifi_data) count)

/-- Lifecycle state of the coordinator: the `_running` flag, the handle
held in `_scan_task` (never reset by stop, as in the source), the list of
live background loop tasks (a created task is appended, a cancelled and
awaited task is removed), and a counter supplying fresh task handles. -/
structure ScannerState where
  running : Bool
  scan_task : Option Nat
  activeLoops : List Nat
  nextTask : Nat
deriving DecidableEq, Repr

/-- State of a freshly constructed `WiFiScanner`. -/
def initScanner : ScannerState :=
  { running := false, scan_task := none, activeLoops := [], nextTask := 0 }

/-- `start_continuous_scan`: warn and return when already running,
otherwise set `_running` and create the loop task.  The Boolean component
is true exactly when the already-running warning was logged. -/
def start_continuous_scan (s : ScannerState) : ScannerState × Bool :=
  if s.running then (s, true)
  else
    ({ running := true, scan_task := some s.nextTask,
       activeLoops := s.activeLoops ++ [s.nextTask],
       nextTask := s.nextTask + 1 }, false)

/-- `stop_continuous_scan`: return at once when not running or when no
task handle is held; otherwise clear `_running`, cancel the task and await
it (removing it from the live loops, the `CancelledError` being
swallowed).  The task handle itself is not reset, as in the source. -/
def stop_continuous_scan (s : ScannerState) : ScannerState :=
  match s.scan_task with
  | none => s
  | some t =>
      if s.running then
        { s with running := false, activeLoops := s.activeLoops.erase t }
      else s

/-- States reachable from construction through the two lifecycle
operations. -/
inductive Reachable : ScannerState → Prop where
  | init : Reachable initScanner
  | step_go {s} : Reachable s → Reachable (start_continuous_scan s).1
  | step_halt {s} : Reachable s → Reachable (stop_continuous_scan s)

/-- Lifecycle invariant: while running the held task handle is the single
live loop; while idle there is no live loop. -/
def ScannerInv (s : ScannerState) : Prop :=
  (s.running = true → ∃ t, s.scan_task = some t ∧ s.activeLoops = [t]) ∧
  (s.running = false → s.activeLoops = [])

/-- Concrete two-record cache used as input by the query witnesses. -/
def sampleCache : Dict :=
  [("AA:BB:CC:DD:EE:01",
    { bssid := "AA:BB:CC:DD:EE:01", signal_strength := -50, essid := none,
      encryption := "Open", frequency := none }),
   ("AA:BB:CC:DD:EE:02",
    { bssid := "AA:BB:CC:DD:EE:02", signal_strength := -40, essid := none,
      encryption := "Open", frequency := none })]

section DictLemmas

variable {α β : Type} [DecidableEq α]

theorem dict_any_key_iff (m : List (α × β)) (k : α) :
    (m.any fun p => decide (p.1 = k)) = true ↔ k ∈ m.map Prod.fst := by
  rw [List.any_eq_true]
  constructor
  · rintro ⟨p, hp, hd⟩
    exact (of_decide_eq_true hd) ▸ List.mem_map_of_mem Prod.fst hp
  · intro hk
    rcases List.mem_map.1 hk with ⟨p, hp, he⟩
    exact ⟨p, hp, decide_eq_true he⟩

theorem dictInsert_of_mem {m : List (α × β)} {k : α} (v : β)
    (h : k ∈ m.map Prod.fst) :
    dictInsert m k v = m.map fun p => stepAssign p (k, v) := by
  unfold dictInsert
  rw [if_pos ((dict_any_key_iff m k).2 h)]
  rfl

theorem dictInsert_of_not_mem {m : List (α × β)} {k : α} (v : β)
    (h : k ∉ m.map Prod.fst) :
    dictInsert m k v = m ++ [(k, v)] := by
  unfold dictInsert
  rw [if_neg fun hc => h ((dict_any_key_iff m k).1 hc)]

theorem stepAssign_fst (p kv : α × β) : (stepAssign p kv).1 = p.1 := by
  unfold stepAssign
  split <;> rfl

theorem map_fst_map_stepAssign (m : List (α × β)) (kv : α × β) :
    ((m.map fun p => stepAssign p kv).map Prod.fst) = m.map Prod.fst := by
  rw [List.map_map]
  exact List.map_congr_left fun p _ => stepAssign_fst p kv

theorem mem_keys_dictInsert_self (m : List (α × β)) (k : α) (v : β) :
    k ∈ (dictInsert m k v).map Prod.fst := by
  by_cases h : k ∈ m.map Prod.fst
  · rw [dictInsert_of_mem v h, map_fst_map_stepAssign]
    exact h
  · rw [dictInsert_of_not_mem v h]
    simp

theorem mem_keys_dictInsert_of_mem {m : List (α × β)} {a : α} (k : α) (v : β)
    (h : a ∈ m.map Prod.fst) : a ∈ (dictInsert m k v).map Prod.fst := by
  by_cases hk : k ∈ m.map Prod.fst
  · rw [dictInsert_of_mem v hk, map_fst_map_stepAssign]
    exact h
  · rw [dictInsert_of_not_mem v hk]
    simp [h]

theorem mem_keys_dictUpdate_left {a : α} :
    ∀ (t m : List (α × β)), a ∈ m.map Prod.fst → a ∈ (dictUpdate m t).map Prod.fst
  | [], _, h => h
  | kv :: t, m, h =>
    mem_keys_dictUpdate_left t (dictInsert m kv.1 kv.2)
      (mem_keys_dictInsert_of_mem kv.1 kv.2 h)

theorem mem_keys_dictUpdate_right {a : α} :
    ∀ (t m : List (α × β)), a ∈ t.map Prod.fst → a ∈ (dictUpdate m t).map Prod.fst := by
  intro t
  induction t with
  | nil => intro m h; simp at h
  | cons kv t ih =>
    intro m h
    rcases List.mem_cons.1 h with h1 | h2
    · exact mem_keys_dictUpdate_left t _ (h1 ▸ mem_keys_dictInsert_self m kv.1 kv.2)
    · exact ih _ h2

theorem dictUpdate_eq_map_finalAssign :
    ∀ (t m : List (α × β)), (∀ a ∈ t.map Prod.fst, a ∈ m.map Prod.fst) →
      dictUpdate m t = m.map (finalAssign t) := by
  intro t
  induction t with
  | nil =>
    intro m _
    show m = m.map fun p => p
    rw [List.map_id']
  | cons kv t ih =>
    intro m h
    have hk : kv.1 ∈ m.map Prod.fst := h kv.1 (by simp)
    show dictUpdate (dictInsert m kv.1 kv.2) t = _
    rw [dictInsert_of_mem kv.2 hk]
    rw [ih _ (by intro a ha; rw [map_fst_map_stepAssign]; exact h a (by simp [ha]))]
    rw [List.map_map]
    rfl

theorem lastAssign_append_single (kv : α × β) (k : α) :
    ∀ t : List (α × β),
      lastAssign (t ++ [kv]) k = if kv.1 = k then some kv.2 else lastAssign t k := by
  intro t
  induction t with
  | nil => by_cases h : kv.1 = k <;> simp [lastAssign, h]
  | cons a t ih =>
    show (match lastAssign (t ++ [kv]) k with
          | some w => some w
          | none => if a.1 = k then some a.2 else none) = _
    rw [ih]
    by_cases h : kv.1 = k <;> simp [h, lastAssign]

theorem lastAssign_isSome_of_mem {k : α} :
    ∀ t : List (α × β), k ∈ t.map Prod.fst → ∃ w, lastAssign t k = some w := by
  intro t
  induction t with
  | nil => intro h; simp at h
  | cons a t ih =>
    intro h
    show ∃ w, (match lastAssign t k with
               | some w => some w
               | none => if a.1 = k then some a.2 else none) = some w
    cases hl : lastAssign t k with
    | some w => exact ⟨w, rfl⟩
    | none =>
      have ha : a.1 = k := by
        rcases List.mem_cons.1 h with h1 | h2
        · exact h1.symm
        · rcases ih (by simpa using h2) with ⟨w, hw⟩
          rw [hw] at hl
          cases hl
      simp [ha]

theorem mem_of_lastAssign_isSome {k : α} :
    ∀ t : List (α × β), (lastAssign t k).isSome = true → k ∈ t.map Prod.fst := by
  intro t
  induction t with
  | nil => intro h; cases h
  | cons a t ih =>
    intro h
    replace h : (match lastAssign t k with
                 | some w => some w
                 | none => if a.1 = k then some a.2 else none).isSome = true := h
    cases hl : lastAssign t k with
    | some w2 => exact List.mem_cons_of_mem _ (ih (by simp [hl]))
    | none =>
      rw [hl] at h
      by_cases ha : a.1 = k
      · exact ha ▸ List.mem_cons_self _ _
      · simp [ha] at h

theorem finalAssign_fst : ∀ (t : List (α × β)) (p : α × β), (finalAssign t p).1 = p.1 := by
  intro t
  induction t with
  | nil => intro p; rfl
  | cons kv t ih =>
    intro p
    show (finalAssign t (stepAssign p kv)).1 = p.1
    rw [ih, stepAssign_fst]

theorem finalAssign_eq_getD :
    ∀ (t : List (α × β)) (k : α) (v₀ : β),
      finalAssign t (k, v₀) = (k, (lastAssign t k).getD v₀) := by
  intro t
  induction t with
  | nil => intro k v₀; rfl
  | cons a t ih =>
    intro k v₀
    show finalAssign t (stepAssign (k, v₀) a) = _
    by_cases h : k = a.1
    · rw [show stepAssign (k, v₀) a = (k, a.2) by simp [stepAssign, h], ih]
      show _ = (k, (match lastAssign t k with
                    | some w => some w
                    | none => if a.1 = k then some a.2 else none).getD v₀)
      cases hl : lastAssign t k <;> simp [hl, h.symm]
    · have ha : a.1 ≠ k := fun hc => h hc.symm
      rw [show stepAssign (k, v₀) a = (k, v₀) by simp [stepAssign, h], ih]
      show _ = (k, (match lastAssign t k with
                    | some w => some w
                    | none => if a.1 = k then some a.2 else none).getD v₀)
      cases hl : lastAssign t k <;> simp [hl, ha]

end DictLemmas

section DictLemmasTwo

variable {α β : Type} [DecidableEq α]

theorem dictInsert_value_of_fst_eq {m : List (α × β)} {k : α} {v : β} {p : α × β}
    (h : p ∈ dictInsert m k v) (hk : p.1 = k) : p.2 = v := by
  by_cases hm : k ∈ m.map Prod.fst
  · rw [dictInsert_of_mem v hm] at h
    rcases List.mem_map.1 h with ⟨q, _, he⟩
    by_cases hq : q.1 = k
    · rw [← he]
      simp [stepAssign, hq]
    · exfalso
      apply hq
      rw [← hk, ← he]
      exact (stepAssign_fst q (k, v)).symm
  · rw [dictInsert_of_not_mem v hm] at h
    rcases List.mem_append.1 h with h1 | h2
    · exact absurd (hk ▸ List.mem_map_of_mem Prod.fst h1) hm
    · rw [List.mem_singleton.1 h2]
  
theorem dictInsert_mem_of_fst_ne {m : List (α × β)} {k : α} {v : β} {p : α × β}
    (h : p ∈ dictInsert m k v) (hk : p.1 ≠ k) : p ∈ m := by
  by_cases hm : k ∈ m.map Prod.fst
  · rw [dictInsert_of_mem v hm] at h
    rcases List.mem_map.1 h with ⟨q, hq, he⟩
    by_cases hqk : q.1 = k
    · exfalso
      apply hk
      rw [← he]
      simp [stepAssign, hqk]
    · rw [← he]
      simpa [stepAssign, hqk] using hq
  · rw [dictInsert_of_not_mem v hm] at h
    rcases List.mem_append.1 h with h1 | h2
    · exact h1
    · exact absurd (congrArg Prod.fst (List.mem_singleton.1 h2)) hk

theorem dictUpdate_append_single (m t : List (α × β)) (kv : α × β) :
    dictUpdate m (t ++ [kv]) = dictInsert (dictUpdate m t) kv.1 kv.2 := by
  unfold dictUpdate
  rw [List.foldl_append]
  rfl

theorem dictUpdate_value {m : List (α × β)} :
    ∀ (t : List (α × β)) (p : α × β) (w : β),
      p ∈ dictUpdate m t → lastAssign t p.1 = some w → p.2 = w := by
  intro t
  induction t using List.reverseRecOn with
  | nil => intro p w _ hl; cases hl
  | append_singleton t kv ih =>
    intro p w hp hl
    rw [dictUpdate_append_single] at hp
    rw [lastAssign_append_single] at hl
    by_cases hk : kv.1 = p.1
    · rw [if_pos hk] at hl
      rw [dictInsert_value_of_fst_eq hp hk.symm]
      exact Option.some.inj hl
    · rw [if_neg hk] at hl
      exact ih p w (dictInsert_mem_of_fst_ne hp fun hc => hk hc.symm) hl

theorem nodup_keys_dictInsert {m : List (α × β)} (k : α) (v : β)
    (h : (m.map Prod.fst).Nodup) : ((dictInsert m k v).map Prod.fst).Nodup := by
  by_cases hm : k ∈ m.map Prod.fst
  · rw [dictInsert_of_mem v hm, map_fst_map_stepAssign]
    exact h
  · rw [dictInsert_of_not_mem v hm, List.map_append]
    simp [List.nodup_append, h, hm]

theorem nodup_keys_dictUpdate :
    ∀ (t m : List (α × β)), (m.map Prod.fst).Nodup →
      ((dictUpdate m t).map Prod.fst).Nodup := by
  intro t
  induction t with
  | nil => intro m h; exact h
  | cons kv t ih =>
    intro m h
    exact ih _ (nodup_keys_dictInsert kv.1 kv.2 h)

theorem finalAssign_of_keys_ne {p : α × β} :
    ∀ t : List (α × β), (∀ kv ∈ t, kv.1 ≠ p.1) → finalAssign t p = p := by
  intro t
  induction t with
  | nil => intro _; rfl
  | cons a t ih =>
    intro h
    show finalAssign t (stepAssign p a) = p
    have hpa : p.1 ≠ a.1 := fun hc => h a (by simp) hc.symm
    rw [show stepAssign p a = p by simp [stepAssign, hpa]]
    exact ih fun kv hkv => h kv (by simp [hkv])

theorem finalAssign_of_mem_dictUpdate {m t : List (α × β)} {p : α × β}
    (h : p ∈ dictUpdate m t) : finalAssign t p = p := by
  by_cases hk : p.1 ∈ t.map Prod.fst
  · rcases lastAssign_isSome_of_mem t hk with ⟨w, hw⟩
    have hv : p.2 = w := dictUpdate_value t p w h hw
    calc finalAssign t p = finalAssign t (p.1, p.2) := rfl
    _ = (p.1, (lastAssign t p.1).getD p.2) := finalAssign_eq_getD t p.1 p.2
    _ = (p.1, w) := by rw [hw]; rfl
    _ = (p.1, p.2) := by rw [hv]
    _ = p := rfl
  · exact finalAssign_of_keys_ne t fun kv hkv hc =>
      hk (hc ▸ List.mem_map_of_mem Prod.fst hkv)

theorem dictUpdate_idem (m t : List (α × β)) :
    dictUpdate (dictUpdate m t) t = dictUpdate m t := by
  rw [dictUpdate_eq_map_finalAssign t (dictUpdate m t)
        (fun a ha => mem_keys_dictUpdate_right t m ha)]
  exact (List.map_congr_left fun p hp => finalAssign_of_mem_dictUpdate hp).trans
    (List.map_id _)

theorem dictUpdate_eq_append :
    ∀ (t acc : List (α × β)), (t.map Prod.fst).Nodup →
      (∀ a ∈ t.map Prod.fst, a ∉ acc.map Prod.fst) →
      dictUpdate acc t = acc ++ t := by
  intro t
  induction t with
  | nil => intro acc _ _; simp [dictUpdate]
  | cons kv t ih =>
    intro acc hnd hdisj
    have hk : kv.1 ∉ acc.map Prod.fst := hdisj kv.1 (by simp)
    show dictUpdate (dictInsert acc kv.1 kv.2) t = _
    rw [dictInsert_of_not_mem kv.2 hk]
    rw [ih (acc ++ [kv])
          (by simp only [List.map_cons, List.nodup_cons] at hnd; exact hnd.2)]
    · simp
    · intro a ha
      rw [List.map_append, List.mem_append]
      rintro (h1 | h2)
      · exact hdisj a (by simp [ha]) h1
      · rcases List.mem_map.1 h2 with ⟨q, hq, he⟩
        rw [List.mem_singleton.1 hq] at he
        rw [List.map_cons, List.nodup_cons] at hnd
        exact hnd.1 (he ▸ ha)

theorem dictOfPairs_eq_self {l : List (α × β)} (h : (l.map Prod.fst).Nodup) :
    dictOfPairs l = l := by
  unfold dictOfPairs
  rw [dictUpdate_eq_append l [] h (by simp)]
  rfl

end DictLemmasTwo

theorem takeAddrChars_length :
    ∀ (n : Nat) (cs a : List Char), takeAddrChars n cs = some a → a.length = n := by
  intro n
  induction n with
  | zero =>
    intro cs a h
    cases cs <;> exact (Option.some.inj h) ▸ rfl
  | succ n ih =>
    intro cs a h
    cases cs with
    | nil => cases h
    | cons c rest =>
      replace h : (if isAddrChar c then (takeAddrChars n rest).map fun ds => c :: ds
                   else none) = some a := h
      by_cases hc : isAddrChar c
      · rw [if_pos hc] at h
        rcases Option.map_eq_some'.1 h with ⟨ds, hds, ha⟩
        rw [← ha, List.length_cons, ih rest ds hds]
      · rw [if_neg hc] at h
        cases h

theorem findAddressAux_length :
    ∀ (cs a : List Char), findAddressAux cs = some a → a.length = 17 := by
  intro cs
  induction cs with
  | nil => intro a h; cases h
  | cons c rest ih =>
    intro a h
    replace h : (match (if charsStartWith addrLit (c :: rest) then
                          takeAddrChars 17 ((c :: rest).drop 9)
                        else none) with
                 | some a => some a
                 | none => findAddressAux rest) = some a := h
    cases hm : (if charsStartWith addrLit (c :: rest) then
                  takeAddrChars 17 ((c :: rest).drop 9)
                else none) with
    | some b =>
      rw [hm] at h
      by_cases hs : charsStartWith addrLit (c :: rest)
      · rw [if_pos hs] at hm
        exact (Option.some.inj h) ▸ takeAddrChars_length 17 _ b hm
      · rw [if_neg hs] at hm
        cases hm
    | none =>
      rw [hm] at h
      exact ih a h

theorem parse_cell_bssid_length {cell : String} {r : NetworkInfo}
    (h : parse_cell cell = some r) : r.bssid.length = 17 := by
  cases haddr : findAddressAux cell.toList with
  | none =>
    simp only [parse_cell, haddr] at h
    exact Option.noConfusion h
  | some addr =>
    simp only [parse_cell, haddr] at h
    have hr := Option.some.inj h
    rw [← hr]
    show addr.length = 17
    exact findAddressAux_length _ _ haddr

theorem parse_cell_bssid_ne_empty {cell : String} {r : NetworkInfo}
    (h : parse_cell cell = some r) : r.bssid ≠ "" := by
  intro he
  have := parse_cell_bssid_length h
  rw [he] at this
  cases this

theorem parseChunksFrom_eq_dictUpdate :
    ∀ (cells : List String) (acc : Dict),
      parseChunksFrom acc cells =
        dictUpdate acc (cells.filterMap fun c =>
          (parse_cell c).map fun info => (info.bssid, info)) := by
  intro cells
  induction cells with
  | nil => intro acc; rfl
  | cons c cells ih =>
    intro acc
    cases hc : parse_cell c with
    | none => simp [parseChunksFrom, hc, List.filterMap_cons, ih]
    | some info =>
      have hb := parse_cell_bssid_ne_empty hc
      simp only [parseChunksFrom, hc, if_pos hb, List.filterMap_cons, Option.map_some']
      rw [ih]
      rfl

theorem parseChunksFrom_skips_malformed :
    ∀ (cells : List String) (acc : Dict),
      parseChunksFrom acc cells =
        parseChunksFrom acc (cells.filter fun c => (parse_cell c).isSome) := by
  intro cells
  induction cells with
  | nil => intro acc; rfl
  | cons c cells ih =>
    intro acc
    cases hc : parse_cell c with
    | none => simp [parseChunksFrom, hc, List.filter_cons, ih]
    | some info =>
      have hfc : List.filter (fun c => (parse_cell c).isSome) (c :: cells)
          = c :: List.filter (fun c => (parse_cell c).isSome) cells := by
        simp [List.filter_cons, hc]
      rw [hfc]
      simp only [parseChunksFrom, hc]
      by_cases hb : info.bssid ≠ ""
      · rw [if_pos hb, if_pos hb]
        exact ih _
      · rw [if_neg hb, if_neg hb]
        exact ih _

theorem length_filterMap_parse :
    ∀ cells : List String,
      (cells.filterMap fun c => (parse_cell c).map fun info => (info.bssid, info)).length
        = (cells.filter fun c => (parse_cell c).isSome).length := by
  intro cells
  induction cells with
  | nil => rfl
  | cons c cells ih =>
    cases hc : parse_cell c <;>
      simp [List.filterMap_cons, List.filter_cons, hc, ih]

theorem findSignalAux_eq_none :
    ∀ cs : List Char,
      (∀ i : Nat, charsStartWith sigLit (cs.drop i) = true →
        matchSignedInt ((cs.drop i).drop 13) = none) →
      findSignalAux cs = none := by
  intro cs
  induction cs with
  | nil => intro _; rfl
  | cons c rest ih =>
    intro h
    have hshift : ∀ i : Nat, charsStartWith sigLit (rest.drop i) = true →
        matchSignedInt ((rest.drop i).drop 13) = none := by
      intro i hi
      have := h (i + 1)
      rw [List.drop_succ_cons] at this
      exact this hi
    show (if charsStartWith sigLit (c :: rest) then
            match matchSignedInt ((c :: rest).drop 13) with
            | some n => some n
            | none => findSignalAux rest
          else findSignalAux rest) = none
    by_cases hs : charsStartWith sigLit (c :: rest)
    · rw [if_pos hs]
      have h0 := h 0 (by rw [List.drop_zero]; exact hs)
      rw [List.drop_zero] at h0
      rw [h0]
      exact ih hshift
    · rw [if_neg hs]
      exact ih hshift

theorem not_charsStartWith_drop :
    ∀ (pat cs : List Char), pat.isEmpty = false → containsAux pat cs = false →
      ∀ i : Nat, charsStartWith pat (cs.drop i) = false := by
  intro pat cs
  induction cs with
  | nil =>
    intro hp _ i
    rw [List.drop_nil]
    cases pat with
    | nil => cases hp
    | cons p ps => rfl
  | cons c rest ih =>
    intro hp hc i
    replace hc : (charsStartWith pat (c :: rest) || containsAux pat rest) = false := hc
    rw [Bool.or_eq_false_iff] at hc
    cases i with
    | zero => rw [List.drop_zero]; exact hc.1
    | succ i => rw [List.drop_succ_cons]; exact ih hp hc.2 i

theorem filter_key_singleton {α β : Type} [DecidableEq α] :
    ∀ (l : List (α × β)) (b : α) (r : β), (l.map Prod.fst).Nodup →
      b ∈ l.map Prod.fst → (∀ p ∈ l, p.1 = b → p.2 = r) →
      l.filter (fun p => decide (p.1 = b)) = [(b, r)] := by
  intro l
  induction l with
  | nil => intro b r _ hb _; simp at hb
  | cons p l ih =>
    intro b r hnd hb hv
    rw [List.map_cons, List.nodup_cons] at hnd
    by_cases hpb : p.1 = b
    · have hp2 : p.2 = r := hv p (by simp) hpb
      have hpe : p = (b, r) := Prod.ext_iff.2 ⟨hpb, hp2⟩
      have hrest : l.filter (fun p => decide (p.1 = b)) = [] := by
        rw [List.filter_eq_nil_iff]
        intro q hq hdq
        exact hnd.1 (hpb ▸ (of_decide_eq_true hdq) ▸ List.mem_map_of_mem Prod.fst hq)
      simp only [List.filter_cons, decide_eq_true hpb, if_true, hrest, hpe]
      simp
    · have hbl : b ∈ l.map Prod.fst := by
        rw [List.map_cons] at hb
        rcases List.mem_cons.1 hb with h1 | h2
        · exact absurd h1.symm hpb
        · exact h2
      simp only [List.filter_cons, decide_eq_false hpb, if_false, Bool.false_eq_true,
        ite_false]
      exact ih b r hnd.2 hbl fun q hq => hv q (by simp [hq])

theorem reachable_inv : ∀ s : ScannerState, Reachable s → ScannerInv s := by
  intro s h
  induction h with
  | init => exact ⟨fun hc => Bool.noConfusion hc, fun _ => rfl⟩
  | @step_go s hr ih =>
    by_cases hrun : s.running
    · unfold start_continuous_scan
      rw [if_pos hrun]
      exact ih
    · unfold start_continuous_scan
      rw [if_neg hrun]
      refine ⟨fun _ => ⟨s.nextTask, rfl, ?_⟩, fun hc => Bool.noConfusion hc⟩
      show s.activeLoops ++ [s.nextTask] = [s.nextTask]
      rw [ih.2 (by simpa using hrun)]
      rfl
  | @step_halt s hr ih =>
    cases ht : s.scan_task with
    | none =>
      simp only [stop_continuous_scan, ht]
      exact ih
    | some t =>
      by_cases hrun : s.running
      · simp only [stop_continuous_scan, ht]
        rw [if_pos hrun]
        refine ⟨fun hc => Bool.noConfusion hc, fun _ => ?_⟩
        show s.activeLoops.erase t = []
        rcases ih.1 hrun with ⟨t2, ht2, hl⟩
        rw [ht] at ht2
        obtain rfl := Option.some.inj ht2
        rw [hl, List.erase_cons_head]
      · simp only [stop_continuous_scan, ht]
        rw [if_neg hrun]
        exact ih

/-- C1: for every parsed chunk the security mode follows the classification
table of the spec: no encryption marker gives Open; encryption marker plus
a WPA2 information-element marker gives WPA2 (whatever the WPA marker);
encryption marker, no WPA2 marker, WPA marker gives WPA; encryption marker
and neither WPA marker gives WEP. -/
theorem parse_cell_security_classification (cell : String) (r : NetworkInfo)
    (h : parse_cell cell = some r) :
    (containsAux encLit cell.toList = false → r.encryption = "Open") ∧
    (containsAux encLit cell.toList = true → hasIEAux wpa2Lit cell.toList = true →
      r.encryption = "WPA2") ∧
    (containsAux encLit cell.toList = true → hasIEAux wpa2Lit cell.toList = false →
      hasIEAux wpaLit cell.toList = true → r.encryption = "WPA") ∧
    (containsAux encLit cell.toList = true → hasIEAux wpa2Lit cell.toList = false →
      hasIEAux wpaLit cell.toList = false → r.encryption = "WEP") := by
  cases haddr : findAddressAux cell.toList with
  | none =>
    simp only [parse_cell, haddr] at h
    exact Option.noConfusion h
  | some addr =>
    simp only [parse_cell, haddr] at h
    obtain rfl := Option.some.inj h
    refine ⟨fun h1 => ?_, fun h1 h2 => ?_, fun h1 h2 h3 => ?_, fun h1 h2 h3 => ?_⟩
    · dsimp only
      rw [h1]
      simp
    · dsimp only
      rw [h1, h2]
      simp
    · dsimp only
      rw [h1, h2, h3]
      simp
    · dsimp only
      rw [h1, h2, h3]
      simp

/-- Witness for C1 at a concrete cell carrying the encryption marker and a
WPA2 information element. -/
theorem parse_cell_security_classification_witness :
    containsAux encLit
      "Address: 00:11:22:33:44:55\nEncryption key:on\nIE: WPA2\n".toList = true ∧
    hasIEAux wpa2Lit
      "Address: 00:11:22:33:44:55\nEncryption key:on\nIE: WPA2\n".toList = true ∧
    ({ bssid := "00:11:22:33:44:55", signal_strength := -100, essid := none,
       encryption := "WPA2", frequency := none } : NetworkInfo).encryption = "WPA2" :=
  ⟨by decide, by decide,
    (parse_cell_security_classification
        "Address: 00:11:22:33:44:55\nEncryption key:on\nIE: WPA2\n"
        { bssid := "00:11:22:33:44:55", signal_strength := -100, essid := none,
          encryption := "WPA2", frequency := none }
        (by decide)).2.1 (by decide) (by decide)⟩

/-- C7 (amended): when no occurrence of the Signal-level label in the chunk
is followed by a parsable signed integer — in particular when the label is
absent altogether — the parsed record carries the sentinel −100. -/
theorem parse_cell_signal_sentinel (cell : String) (r : NetworkInfo)
    (h : parse_cell cell = some r)
    (hbad : ∀ i : Nat, charsStartWith sigLit (cell.toList.drop i) = true →
      matchSignedInt ((cell.toList.drop i).drop 13) = none) :
    r.signal_strength = -100 := by
  cases haddr : findAddressAux cell.toList with
  | none =>
    simp only [parse_cell, haddr] at h
    exact Option.noConfusion h
  | some addr =>
    simp only [parse_cell, haddr] at h
    obtain rfl := Option.some.inj h
    show (findSignalAux cell.toList).getD (-100) = -100
    rw [findSignalAux_eq_none cell.toList hbad]
    rfl

/-- Witness for C7 at a concrete chunk carrying no Signal-level label at
all. -/
theorem parse_cell_signal_sentinel_witness :
    ({ bssid := "AA:BB:CC:DD:EE:07", signal_strength := -100, essid := none,
       encryption := "Open", frequency := none } : NetworkInfo).signal_strength = -100 :=
  parse_cell_signal_sentinel "Address: AA:BB:CC:DD:EE:07\nQuality junk\n"
    { bssid := "AA:BB:CC:DD:EE:07", signal_strength := -100, essid := none,
      encryption := "Open", frequency := none } (by decide)
    (fun i hi => by
      rw [not_charsStartWith_drop sigLit
            "Address: AA:BB:CC:DD:EE:07\nQuality junk\n".toList
            (by decide) (by decide) i] at hi
      exact Bool.noConfusion hi)

/-- C7 counterexample: this chunk contains a Signal-level label (at offset
27) whose value is not parsable as a signed integer, yet its parsed record
has signal −42 rather than the sentinel −100, because a second label later
in the chunk does parse. -/
theorem parse_cell_signal_counterexample :
    charsStartWith sigLit
      ("Address: AA:BB:CC:DD:EE:05\nSignal level=x\nSignal level=-42\n".toList.drop 27)
      = true ∧
    matchSignedInt
      (("Address: AA:BB:CC:DD:EE:05\nSignal level=x\nSignal level=-42\n".toList.drop 27).drop 13)
      = none ∧
    (parse_cell "Address: AA:BB:CC:DD:EE:05\nSignal level=x\nSignal level=-42\n").map
      NetworkInfo.signal_strength = some (-42) := by
  decide

/-- C6: every non-success outcome of the external scan tool — nonzero exit,
timeout, missing binary, or any other execution error — yields an empty
mapping plus a logged diagnostic; totality of the embedding reflects that
none of these conditions raises to the caller. -/
theorem scan_wifi_sync_failure (o : ExecOutcome)
    (h : ∀ s, o ≠ ExecOutcome.success s) :
    scan_wifi_sync o = ([], true) := by
  cases o with
  | success s => exact absurd rfl (h s)
  | calledProcessError => rfl
  | timeoutExpired => rfl
  | fileNotFoundError => rfl
  | otherError => rfl

/-- Witness for C6 at the timeout outcome. -/
theorem scan_wifi_sync_failure_witness :
    scan_wifi_sync ExecOutcome.timeoutExpired = ([], true) :=
  scan_wifi_sync_failure ExecOutcome.timeoutExpired
    (fun _ h => ExecOutcome.noConfusion h)

/-- C8: merging one scan result into the cache twice (the overwrite-by-
identifier merge of the scan loop) leaves the cache exactly as merging it
once. -/
theorem scan_loop_merge_idempotent (cache res : Dict) :
    scanLoopMerge (scanLoopMerge cache res) res = scanLoopMerge cache res := by
  by_cases h : res.isEmpty = true
  · simp [scanLoopMerge, h]
  · simp [scanLoopMerge, h, dictUpdate_idem]

/-- C2 (amended): the parser is a total function (it never raises), a
malformed chunk is skipped without affecting the remaining chunks, zero
warnings are logged (the warning branch would require the per-chunk parser
to raise, which it cannot), and the record count equals the number of
well-formed chunks whenever their identifiers are distinct. -/
theorem parse_scan_results_tolerant (scan_output : String) :
    parse_scan_results scan_output =
      parseChunksFrom []
        ((splitCells scan_output).filter fun c => (parse_cell c).isSome) ∧
    parse_warnings scan_output = 0 ∧
    (((cellRecords scan_output).map Prod.fst).Nodup →
      (parse_scan_results scan_output).length =
        ((splitCells scan_output).filter fun c => (parse_cell c).isSome).length) := by
  refine ⟨parseChunksFrom_skips_malformed _ _, rfl, fun hnd => ?_⟩
  have hD : parse_scan_results scan_output = dictUpdate [] (cellRecords scan_output) :=
    parseChunksFrom_eq_dictUpdate _ _
  rw [hD, dictUpdate_eq_append _ [] hnd (by simp), List.nil_append]
  show (cellRecords scan_output).length = _
  exact length_filterMap_parse _

/-- Witness for C2 at a scan text with one well-formed and one malformed
block. -/
theorem parse_scan_results_tolerant_witness :
    (parse_scan_results
        "Cell 1 - Address: AA:BB:CC:DD:EE:01\nSignal level=-40\nCell 2 - junk\n").length =
      ((splitCells
          "Cell 1 - Address: AA:BB:CC:DD:EE:01\nSignal level=-40\nCell 2 - junk\n").filter
        fun c => (parse_cell c).isSome).length :=
  (parse_scan_results_tolerant
      "Cell 1 - Address: AA:BB:CC:DD:EE:01\nSignal level=-40\nCell 2 - junk\n").2.2
    (by decide)

/-- C2 counterexample: this scan text contains exactly one malformed block
(its second block has no parsable identifier), yet the parser logs zero
warnings rather than one — the malformed chunk is skipped silently, since
the warning branch fires only when the per-chunk parser raises. -/
theorem parse_warnings_counterexample :
    ((splitCells
        "Cell 1 - Address: AA:BB:CC:DD:EE:01\nSignal level=-40\nCell 2 - junk\n").filter
      fun c => (parse_cell c).isNone).length = 1 ∧
    ¬ parse_warnings
        "Cell 1 - Address: AA:BB:CC:DD:EE:01\nSignal level=-40\nCell 2 - junk\n" = 1 := by
  decide

/-- C3: in any scan text, an identifier assigned by at least one
well-formed block occurs exactly once in the result mapping, bound to the
record parsed from the block carrying it that appears last in text
order. -/
theorem parse_scan_results_later_wins (scan_output : String) (b : String)
    (r : NetworkInfo) (h : lastAssign (cellRecords scan_output) b = some r) :
    (parse_scan_results scan_output).filter (fun p => decide (p.1 = b)) = [(b, r)] := by
  have hD : parse_scan_results scan_output = dictUpdate [] (cellRecords scan_output) :=
    parseChunksFrom_eq_dictUpdate _ _
  rw [hD]
  apply filter_key_singleton
  · exact nodup_keys_dictUpdate _ _ (by simp)
  · exact mem_keys_dictUpdate_right _ _
      (mem_of_lastAssign_isSome _ (by simp [h]))
  · intro p hp hpb
    refine dictUpdate_value _ p r hp ?_
    rw [hpb]
    exact h

/-- Witness for C3 at a scan text with two blocks sharing one
identifier. -/
theorem parse_scan_results_later_wins_witness :
    (parse_scan_results
        "Cell 1 - Address: AA:BB:CC:DD:EE:01\nSignal level=-40\nCell 2 - Address: AA:BB:CC:DD:EE:01\nSignal level=-70\n").filter
      (fun p => decide (p.1 = "AA:BB:CC:DD:EE:01")) =
      [("AA:BB:CC:DD:EE:01",
        { bssid := "AA:BB:CC:DD:EE:01", signal_strength := -70, essid := none,
          encryption := "Open", frequency := none })] :=
  parse_scan_results_later_wins _ _ _ (by decide)

/-- C4 (amended): get_networks returns exactly the cached records whose
signal meets the threshold (the embedding is a pure function of the cache,
reflecting that the cache is not mutated), and the default threshold −100
returns every cached record provided each cached record has signal at
least −100. -/
theorem get_networks_spec (cache : Dict) (min_signal : Int) :
    (∀ p, p ∈ get_networks cache min_signal ↔
      p ∈ cache ∧ min_signal ≤ p.2.signal_strength) ∧
    ((∀ p ∈ cache, -100 ≤ p.2.signal_strength) →
      get_networks_default cache = cache) := by
  constructor
  · intro p
    simp [get_networks, List.mem_filter]
  · intro hall
    show List.filter _ cache = cache
    rw [List.filter_eq_self]
    intro p hp
    exact decide_eq_true (hall p hp)

/-- Witness for C4 at a one-record cache at signal −40. -/
theorem get_networks_spec_witness :
    get_networks_default
        [("AA:BB:CC:DD:EE:09",
          { bssid := "AA:BB:CC:DD:EE:09", signal_strength := -40, essid := none,
            encryption := "Open", frequency := none })] =
      [("AA:BB:CC:DD:EE:09",
        { bssid := "AA:BB:CC:DD:EE:09", signal_strength := -40, essid := none,
          encryption := "Open", frequency := none })] :=
  (get_networks_spec _ (-100)).2 (by decide)

/-- C4 counterexample: a cache state produced by the parser itself (one
record at signal −150) is not returned whole by the default-threshold
query — the record below −100 is filtered out — so the default threshold
does not admit all cached records. -/
theorem get_networks_default_counterexample :
    ¬ (get_networks_default
        (parse_scan_results "Cell 1 - Address: AA:BB:CC:DD:EE:01\nSignal level=-150\n") =
      parse_scan_results "Cell 1 - Address: AA:BB:CC:DD:EE:01\nSignal level=-150\n") := by
  decide

theorem nodup_keys_sortTake (cache : Dict) (n : Nat)
    (hnd : (cache.map Prod.fst).Nodup) :
    (((List.insertionSort sigGE cache).take n).map Prod.fst).Nodup := by
  have hkeys : ((List.insertionSort sigGE cache).map Prod.fst).Nodup :=
    ((List.perm_insertionSort sigGE cache).map Prod.fst).nodup_iff.2 hnd
  rw [List.map_take]
  exact hkeys.sublist (List.take_sublist _ _)

/-- C5: for a nonnegative count and a cache with distinct identifiers (the
dict invariant), the strongest-networks query returns records ordered by
descending signal strength, with length min(count, cache size); the
embedding is a pure function of the cache, reflecting that the cache is
not mutated. -/
theorem get_strongest_networks_sorted (cache : Dict) (count : Int)
    (hnd : (cache.map Prod.fst).Nodup) (hc : 0 ≤ count) :
    (get_strongest_networks cache count).length = min count.toNat cache.length ∧
    (get_strongest_networks cache count).Pairwise
      (fun a b => b.2.signal_strength ≤ a.2.signal_strength) := by
  have hres : get_strongest_networks cache count =
      (List.insertionSort sigGE cache).take count.toNat := by
    unfold get_strongest_networks pyTake
    rw [if_pos hc]
    exact dictOfPairs_eq_self (nodup_keys_sortTake cache count.toNat hnd)
  constructor
  · rw [hres, List.length_take, (List.perm_insertionSort sigGE cache).length_eq]
  · rw [hres]
    exact List.Pairwise.sublist (List.take_sublist _ _)
      (List.sorted_insertionSort sigGE cache)

/-- Witness for C5 at a concrete two-record cache and count 1. -/
theorem get_strongest_networks_sorted_witness :
    (get_strongest_networks sampleCache 1).length =
      min (1 : Int).toNat sampleCache.length ∧
    (get_strongest_networks sampleCache 1).Pairwise
      (fun a b => b.2.signal_strength ≤ a.2.signal_strength) :=
  get_strongest_networks_sorted sampleCache 1 (by decide) (by decide)

/-- C10: a negative count acts as a Python slice bound from the end: the
query returns the strongest max(cacheSize + count, 0) records — exactly
the result of the query at that nonnegative count — with length
cacheSize − |count| truncated at zero, rather than an empty mapping. -/
theorem get_strongest_networks_negative (cache : Dict) (count : Int)
    (hnd : (cache.map Prod.fst).Nodup) (hc : count < 0) :
    get_strongest_networks cache count =
      get_strongest_networks cache (max (↑cache.length + count) 0) ∧
    (get_strongest_networks cache count).length =
      cache.length - (-count).toNat := by
  have hlen : (List.insertionSort sigGE cache).length = cache.length :=
    (List.perm_insertionSort sigGE cache).length_eq
  have harg : (List.insertionSort sigGE cache).length - (-count).toNat =
      (max (↑cache.length + count) 0).toNat := by
    rw [hlen]
    omega
  have h1 : get_strongest_networks cache count =
      (List.insertionSort sigGE cache).take
        ((List.insertionSort sigGE cache).length - (-count).toNat) := by
    unfold get_strongest_networks pyTake
    rw [if_neg (by omega)]
    exact dictOfPairs_eq_self (nodup_keys_sortTake cache _ hnd)
  have h2 : get_strongest_networks cache (max (↑cache.length + count) 0) =
      (List.insertionSort sigGE cache).take ((max (↑cache.length + count) 0).toNat) := by
    unfold get_strongest_networks pyTake
    rw [if_pos (le_max_right _ _)]
    exact dictOfPairs_eq_self (nodup_keys_sortTake cache _ hnd)
  constructor
  · rw [h1, h2, harg]
  · rw [h1, List.length_take, hlen]
    omega

/-- Witness for C10 at a concrete two-record cache and count −1. -/
theorem get_strongest_networks_negative_witness :
    get_strongest_networks sampleCache (-1) =
      get_strongest_networks sampleCache (max (↑sampleCache.length + (-1)) 0) ∧
    (get_strongest_networks sampleCache (-1)).length =
      sampleCache.length - (-(-1) : Int).toNat :=
  get_strongest_networks_negative sampleCache (-1) (by decide) (by decide)

/-- C9: the coordinator lifecycle is the state machine Idle → Running →
Idle: starting while running is a no-op with a warning, two successive
starts from any reachable state leave exactly one live loop task, stopping
while idle (including before any start) is a no-op that does not raise,
and both operations are safe to repeat. -/
theorem lifecycle_state_machine (s : ScannerState) (hr : Reachable s) :
    (s.running = true → start_continuous_scan s = (s, true)) ∧
    (start_continuous_scan (start_continuous_scan s).1).1 =
      (start_continuous_scan s).1 ∧
    ((start_continuous_scan (start_continuous_scan s).1).1).activeLoops.length = 1 ∧
    (s.running = false → stop_continuous_scan s = s) ∧
    stop_continuous_scan (stop_continuous_scan s) = stop_continuous_scan s := by
  have inv := reachable_inv s hr
  have hgo_run : ∀ u : ScannerState, u.running = true →
      start_continuous_scan u = (u, true) := by
    intro u hu
    unfold start_continuous_scan
    rw [if_pos hu]
  have hrun1 : (start_continuous_scan s).1.running = true := by
    unfold start_continuous_scan
    by_cases hu : s.running = true
    · rw [if_pos hu]
      exact hu
    · rw [if_neg hu]
  refine ⟨hgo_run s, ?_, ?_, ?_, ?_⟩
  · rw [hgo_run _ hrun1]
  · rw [hgo_run _ hrun1]
    by_cases hu : s.running = true
    · rcases inv.1 hu with ⟨t, _, hl⟩
      rw [hgo_run s hu]
      show s.activeLoops.length = 1
      rw [hl]
      rfl
    · unfold start_continuous_scan
      rw [if_neg hu]
      show (s.activeLoops ++ [s.nextTask]).length = 1
      rw [inv.2 (by simpa using hu)]
      rfl
  · intro hidle
    unfold stop_continuous_scan
    split
    · rfl
    · rw [if_neg (by simp [hidle])]
  · cases ht : s.scan_task with
    | none =>
      have h1 : stop_continuous_scan s = s := by
        simp only [stop_continuous_scan, ht]
      rw [h1, h1]
    | some t =>
      by_cases hu : s.running = true
      · have h1 : stop_continuous_scan s =
            { s with running := false, activeLoops := s.activeLoops.erase t } := by
          simp only [stop_continuous_scan, ht, if_pos hu]
        rw [h1]
        simp [stop_continuous_scan, ht]
      · have h1 : stop_continuous_scan s = s := by
          simp only [stop_continuous_scan, ht]
          rw [if_neg hu]
        rw [h1, h1]

/-- Witness for C9 at the freshly constructed scanner. -/
theorem lifecycle_state_machine_witness :
    stop_continuous_scan initScanner = initScanner ∧
    ((start_continuous_scan (start_continuous_scan initScanner).1).1).activeLoops.length
      = 1 :=
  ⟨(lifecycle_state_machine initScanner Reachable.init).2.2.2.1 rfl,
   (lifecycle_state_machine initScanner Reachable.init).2.2.1⟩
